import Mathlib

/-!
# Verification of the text2video core

Shallow embedding of the text2video slide-to-video pipeline:
* the per-line option parser (duration / color / text-size / uppercase),
* the markup tokenizer and the greedy segment word-wrap,
* the frame sequencer (frames, markers, line start indices),
* the export pipeline's progress reporting, transcode percent computation,
  empty-input error handling and intermediate-file cleanup.

Machine strings are modelled as Lean `String`/`List Char`; the JavaScript
regular expressions used by the source are modelled by direct leftmost-scan
matchers over character lists; canvas images are abstracted as an opaque
encoding function (a parameter `render`).
-/

namespace Text2Video

/-- ASCII decimal digit, the `\d` class of the source regexes. -/
def isDigit (c : Char) : Bool := '0' ≤ c && c ≤ '9'

/-- Whitespace, the `\s` class of the source regexes (ASCII part). -/
def isWsChar (c : Char) : Bool :=
  c == ' ' || c == '\t' || c == '\n' || c == '\r' || c == '\x0b' || c == '\x0c'

/-- Word character, the `\w` class of the source regexes. -/
def isWordChar (c : Char) : Bool :=
  ('a' ≤ c && c ≤ 'z') || ('A' ≤ c && c ≤ 'Z') || isDigit c || c == '_'

/-- Hexadecimal digit, the `[0-9a-fA-F]` class of the color regex. -/
def isHexDigit (c : Char) : Bool :=
  isDigit c || ('a' ≤ c && c ≤ 'f') || ('A' ≤ c && c ≤ 'F')

/-- Numeric value of a list of decimal digits, most significant first;
models `Number.parseInt(digits, 10)` on a nonempty all-digit capture. -/
def digitsVal (l : List Char) : Nat :=
  l.foldl (fun acc c => 10 * acc + (c.toNat - '0'.toNat)) 0

/-- Does `pat` occur as a contiguous substring of `l`? -/
def hasSub (pat : List Char) : List Char → Bool
  | [] => pat.isPrefixOf []
  | c :: rest => pat.isPrefixOf (c :: rest) || hasSub pat rest

/-- Leftmost-match scan: try the single-position matcher `f` at every suffix,
left to right, exactly as a JavaScript regex engine searches for a match. -/
def scanFor {α : Type} (f : List Char → Option α) : List Char → Option α
  | [] => f []
  | c :: rest =>
    match f (c :: rest) with
    | some a => some a
    | none => scanFor f rest

/-- Single-position matcher for `/duration\s+(\d+)/`: the literal `duration`,
one or more whitespace characters, then the (greedy, maximal) digit capture. -/
def durAt (l : List Char) : Option Nat :=
  if "duration".data.isPrefixOf l then
    let rest := l.drop 8
    let ws := rest.takeWhile isWsChar
    if ws.isEmpty then none
    else
      let ds := (rest.dropWhile isWsChar).takeWhile isDigit
      if ds.isEmpty then none else some (digitsVal ds)
  else none

/-- `optionsStr.match(/duration\s+(\d+)/)`, returning the parsed capture. -/
def matchDuration (l : List Char) : Option Nat := scanFor durAt l

/-- Single-position matcher for `/color\s+(\w+|#[0-9a-fA-F]{6})/`: the literal
`color`, one or more whitespace characters, then either a maximal `\w+` run or
`#` followed by exactly six hex digits (the first alternative is tried first;
the two alternatives start with disjoint character classes). -/
def colorAt (l : List Char) : Option (List Char) :=
  if "color".data.isPrefixOf l then
    let rest := l.drop 5
    let ws := rest.takeWhile isWsChar
    if ws.isEmpty then none
    else
      match rest.dropWhile isWsChar with
      | '#' :: h1 :: h2 :: h3 :: h4 :: h5 :: h6 :: _ =>
        if isHexDigit h1 && isHexDigit h2 && isHexDigit h3 &&
            isHexDigit h4 && isHexDigit h5 && isHexDigit h6 then
          some ['#', h1, h2, h3, h4, h5, h6]
        else none
      | after =>
        let ws2 := after.takeWhile isWordChar
        if ws2.isEmpty then none else some ws2
  else none

/-- `optionsStr.match(/color\s+(\w+|#[0-9a-fA-F]{6})/)`, returning the capture. -/
def matchColor (l : List Char) : Option (List Char) := scanFor colorAt l

/-- Is the next position a `\b` word boundary after a word character? -/
def atBoundary : List Char → Bool
  | [] => true
  | c :: _ => !isWordChar c

/-- Single-position matcher for `/text(xs|sm|lg|xl)\b/`: the literal `text`,
one of the four size tokens, then a word boundary. -/
def sizeAt (l : List Char) : Option (List Char) :=
  if "text".data.isPrefixOf l then
    let rest := l.drop 4
    if "xs".data.isPrefixOf rest && atBoundary (rest.drop 2) then some "xs".data
    else if "sm".data.isPrefixOf rest && atBoundary (rest.drop 2) then some "sm".data
    else if "lg".data.isPrefixOf rest && atBoundary (rest.drop 2) then some "lg".data
    else if "xl".data.isPrefixOf rest && atBoundary (rest.drop 2) then some "xl".data
    else none
  else none

/-- `optionsStr.match(/text(xs|sm|lg|xl)\b/)`, returning the captured token. -/
def matchTextSize (l : List Char) : Option (List Char) := scanFor sizeAt l

/-- The fixed size-multiplier table `TEXT_SIZE_MULTIPLIERS`
(`{xs: 0.5, sm: 0.75, base: 1, lg: 1.5, xl: 2}`). -/
def sizeMultOf (tok : List Char) : ℚ :=
  if tok = "xs".data then 1 / 2
  else if tok = "sm".data then 3 / 4
  else if tok = "lg".data then 3 / 2
  else if tok = "xl".data then 2
  else 1

/-- Modelled from the spec: the source tree under `src/` predates the
`uppercase` option; per the spec's grammar (`[ -- uppercase]`, an `uppercase`
boolean flag, default false) the flag is set when the `uppercase` token
occurs in the options string. -/
def matchUppercase (l : List Char) : Bool := hasSub "uppercase".data l

/-- Split a script line at the first occurrence of the `--` separator,
models `const [text, ...optionsArr] = line.split('--')` followed by
`optionsArr.join('--')`: the text is everything before the first `--`,
the options string everything after it (empty when there is no `--`). -/
def splitSep : List Char → Option (List Char × List Char)
  | [] => none
  | '-' :: '-' :: rest => some ([], rest)
  | c :: rest => (splitSep rest).map (fun p => (c :: p.1, p.2))

/-- The raw text part of a script line (before the first `--`). -/
def textPart (l : List Char) : List Char :=
  match splitSep l with
  | some p => p.1
  | none => l

/-- The options part of a script line (after the first `--`, else empty). -/
def optsPart (l : List Char) : List Char :=
  match splitSep l with
  | some p => p.2
  | none => []

/-- `String.prototype.trim` on a character list (whitespace off both ends). -/
def jsTrim (l : List Char) : List Char :=
  ((l.dropWhile isWsChar).reverse.dropWhile isWsChar).reverse

/-- A parsed slide: one script line with its resolved display options
(the spec's `Slide` record). -/
structure ParsedSlide where
  /-- The trimmed markup text handed to `parseHTML`. -/
  text : String
  /-- Slide duration in seconds (`duration` option, default 3). -/
  duration : Nat
  /-- Text color (`color` option, default the fixed white `#fff`). -/
  color : String
  /-- Font size multiplier (text-size option through the multiplier table). -/
  sizeMult : ℚ
  /-- Uppercase flag (modelled from the spec, default false). -/
  uppercase : Bool
  deriving DecidableEq, Repr

/-- Parse one script line into a `ParsedSlide`, the option-parsing block of
the frame-generation effect.  Total: malformed or missing options fall back
to the defaults. -/
def parseSlide (line : String) : ParsedSlide :=
  let opts := optsPart line.data
  { text := String.mk (jsTrim (textPart line.data))
    duration := (matchDuration opts).getD 3
    color := match matchColor opts with
      | some c => String.mk c
      | none => "#fff"
    sizeMult := match matchTextSize opts with
      | some tok => sizeMultOf tok
      | none => 1
    uppercase := matchUppercase opts }

example : (parseSlide "Hello <b>World</b> -- duration 2 -- color #ff0000 -- textlg").duration = 2 := by decide
example : (parseSlide "Hello <b>World</b> -- duration 2 -- color #ff0000 -- textlg").color = "#ff0000" := by decide
example : (parseSlide "Hello <b>World</b> -- duration 2 -- color #ff0000 -- textlg").sizeMult = 3 / 2 := rfl
example : (parseSlide "Second slide -- duration 1").duration = 1 := by decide
example : (parseSlide "Second slide -- duration 1").color = "#fff" := by decide
example : (parseSlide "Second slide").duration = 3 := by decide
example : (parseSlide "x -- color red").color = "red" := by decide
example : (parseSlide "b -- duration 0").duration = 0 := by decide
example : (parseSlide "x -- uppercase").uppercase = true := by decide
example : (parseSlide "x -- textxs").sizeMult = 1 / 2 := rfl
example : (parseSlide "x -- textxsy").sizeMult = 1 := rfl
example : (parseSlide "x -- duratio 4").duration = 3 := by decide
example : (parseSlide "Hello <b>World</b> -- duration 2").text = "Hello <b>World</b>" := by decide

/-! ## Frame sequencer

The frame-generation effect: for each script line, record the start index of
the slide's first frame, parse options, render the still (abstracted as the
`render` parameter), append `duration * 30` copies of it, and push the
cumulative duration as a marker. -/

/-- The accumulated state of the frame-generation loop. -/
structure GenState where
  /-- The flat frame sequence (`newFrames`). -/
  frames : List String
  /-- Cumulative-duration markers (`newMarkers`). -/
  markers : List Nat
  /-- Start index of each slide's first frame (`newLineStartFrames`). -/
  lineStarts : List Nat
  /-- Running total duration in seconds (`totalDuration`). -/
  total : Nat
  deriving DecidableEq, Repr

/-- One iteration of the frame-generation loop body. -/
def genStep (render : ParsedSlide → String) (st : GenState) (line : String) : GenState :=
  let s := parseSlide line
  { frames := st.frames ++ List.replicate (s.duration * 30) (render s)
    markers := st.markers ++ [st.total + s.duration]
    lineStarts := st.lineStarts ++ [st.frames.length]
    total := st.total + s.duration }

/-- The whole frame-generation effect over the script lines. -/
def generate (render : ParsedSlide → String) (lines : List String) : GenState :=
  lines.foldl (genStep render) ⟨[], [], [], 0⟩

/-- The block of frames a single slide contributes. -/
def slideFrames (render : ParsedSlide → String) (s : ParsedSlide) : List String :=
  List.replicate (s.duration * 30) (render s)

/-- Closed form of the frame sequence: per-slide blocks, concatenated. -/
def framesOf (render : ParsedSlide → String) (lines : List String) : List String :=
  (lines.map (fun l => slideFrames render (parseSlide l))).flatten

/-- The parsed durations of the script lines. -/
def dursOf (lines : List String) : List Nat :=
  lines.map (fun l => (parseSlide l).duration)

/-- Partial sums of a duration list, starting from `acc` (the markers). -/
def psums (acc : Nat) : List Nat → List Nat
  | [] => []
  | d :: ds => (acc + d) :: psums (acc + d) ds

/-- Frame start indices: `acc`, then shifted by `30` frames per second. -/
def fstarts (acc : Nat) : List Nat → List Nat
  | [] => []
  | d :: ds => acc :: fstarts (acc + d * 30) ds

theorem generate_from (render : ParsedSlide → String) (lines : List String) :
    ∀ st : GenState,
      lines.foldl (genStep render) st =
        { frames := st.frames ++ framesOf render lines
          markers := st.markers ++ psums st.total (dursOf lines)
          lineStarts := st.lineStarts ++ fstarts st.frames.length (dursOf lines)
          total := st.total + (dursOf lines).sum } := by
  induction lines with
  | nil => intro st; simp [framesOf, dursOf, psums, fstarts]
  | cons l ls ih =>
    intro st
    rw [List.foldl_cons, ih]
    simp only [genStep, framesOf, dursOf, psums, fstarts, slideFrames, List.map_cons,
      List.flatten_cons, List.length_append, List.length_replicate, List.append_assoc,
      List.cons_append, List.nil_append, Nat.add_assoc, List.sum_cons, GenState.mk.injEq]


theorem generate_frames (render : ParsedSlide → String) (lines : List String) :
    (generate render lines).frames = framesOf render lines := by
  simp [generate, generate_from]

theorem generate_markers (render : ParsedSlide → String) (lines : List String) :
    (generate render lines).markers = psums 0 (dursOf lines) := by
  simp [generate, generate_from]

theorem generate_lineStarts (render : ParsedSlide → String) (lines : List String) :
    (generate render lines).lineStarts = fstarts 0 (dursOf lines) := by
  simp [generate, generate_from]

theorem generate_total (render : ParsedSlide → String) (lines : List String) :
    (generate render lines).total = (dursOf lines).sum := by
  simp [generate, generate_from]

theorem psums_le_mem : ∀ (ds : List Nat) (a x : Nat), x ∈ psums a ds → a ≤ x := by
  intro ds
  induction ds with
  | nil => intro a x hx; simp [psums] at hx
  | cons d ds ih =>
    intro a x hx
    simp only [psums, List.mem_cons] at hx
    rcases hx with h | h
    · omega
    · have := ih (a + d) x h; omega

theorem psums_lt_mem : ∀ (ds : List Nat) (a x : Nat), (∀ d ∈ ds, 0 < d) →
    x ∈ psums a ds → a < x := by
  intro ds
  induction ds with
  | nil => intro a x _ hx; simp [psums] at hx
  | cons d ds ih =>
    intro a x hpos hx
    have hd : 0 < d := hpos d (by simp)
    simp only [psums, List.mem_cons] at hx
    rcases hx with h | h
    · omega
    · have := ih (a + d) x (fun e he => hpos e (by simp [he])) h; omega

theorem psums_pairwise_le : ∀ (ds : List Nat) (a : Nat),
    (psums a ds).Pairwise (· ≤ ·) := by
  intro ds
  induction ds with
  | nil => intro a; simp [psums]
  | cons d ds ih =>
    intro a
    simp only [psums, List.pairwise_cons]
    exact ⟨fun x hx => psums_le_mem ds (a + d) x hx, ih (a + d)⟩

theorem psums_pairwise_lt : ∀ (ds : List Nat) (a : Nat), (∀ d ∈ ds, 0 < d) →
    (psums a ds).Pairwise (· < ·) := by
  intro ds
  induction ds with
  | nil => intro a _; simp [psums]
  | cons d ds ih =>
    intro a hpos
    simp only [psums, List.pairwise_cons]
    refine ⟨fun x hx => psums_lt_mem ds (a + d) x ?_ hx, ih (a + d) ?_⟩ <;>
      exact fun e he => hpos e (by simp [he])

theorem psums_getLast? : ∀ (ds : List Nat) (a : Nat), ds ≠ [] →
    (psums a ds).getLast? = some (a + ds.sum) := by
  intro ds
  induction ds with
  | nil => intro a h; exact absurd rfl h
  | cons d ds ih =>
    intro a _
    cases ds with
    | nil => simp [psums]
    | cons e es =>
      have h2 := ih (a + d) (by simp)
      simp only [psums] at h2 ⊢
      rw [List.getLast?_cons_cons]
      rw [show a + d + (e :: es).sum = a + (d :: e :: es).sum by simp; omega] at h2
      exact h2

theorem fstarts_shift : ∀ (ds : List Nat) (a b : Nat) (i : Nat), i < ds.length →
    (fstarts (a + b) ds).getD i 0 = a + (fstarts b ds).getD i 0 := by
  intro ds
  induction ds with
  | nil => intro a b i hi; simp at hi
  | cons d ds ih =>
    intro a b i hi
    cases i with
    | zero => simp [fstarts]
    | succ j =>
      simp only [fstarts, List.getD_cons_succ]
      rw [show a + b + d * 30 = a + (b + d * 30) by omega]
      exact ih a (b + d * 30) j (by simpa using hi)

theorem frames_extract (render : ParsedSlide → String) :
    ∀ (lines : List String) (i : Nat), i < lines.length →
      ((framesOf render lines).drop ((fstarts 0 (dursOf lines)).getD i 0)).take
          ((parseSlide (lines.getD i "")).duration * 30)
        = List.replicate ((parseSlide (lines.getD i "")).duration * 30)
            (render (parseSlide (lines.getD i ""))) := by
  intro lines
  induction lines with
  | nil => intro i hi; simp at hi
  | cons l ls ih =>
    intro i hi
    cases i with
    | zero =>
      simp only [framesOf, dursOf, fstarts, List.map_cons, List.flatten_cons,
        List.getD_cons_zero, List.drop_zero, slideFrames]
      rw [List.take_left' (by simp)]
    | succ j =>
      have hj : j < ls.length := by simpa using hi
      simp only [framesOf, dursOf, fstarts, List.map_cons, List.flatten_cons,
        List.getD_cons_succ, slideFrames]
      rw [show List.map (fun l => (parseSlide l).duration) ls = dursOf ls from rfl]
      rw [show (0 : Nat) + (parseSlide l).duration * 30 = (parseSlide l).duration * 30 + 0 by omega]
      rw [fstarts_shift (dursOf ls) ((parseSlide l).duration * 30) 0 j (by simpa [dursOf] using hj)]
      rw [show ((parseSlide l).duration * 30 + (fstarts 0 (dursOf ls)).getD j 0)
            = (List.replicate ((parseSlide l).duration * 30) (render (parseSlide l))).length
              + (fstarts 0 (dursOf ls)).getD j 0 by simp]
      rw [List.drop_append]
      exact ih j hj

/-- C1: for every parsed slide `i`, the generated frame sequence carries
exactly `duration_i * 30` consecutive repetitions of slide `i`'s encoded
still image, starting at the recorded line start index; globally the frame
sequence is precisely the concatenation of those per-slide blocks. -/
theorem C1_frame_replication (render : ParsedSlide → String) (lines : List String)
    (i : Nat) (hi : i < lines.length) :
    (generate render lines).frames = framesOf render lines ∧
    ((generate render lines).frames.drop
        (((generate render lines).lineStarts).getD i 0)).take
        ((parseSlide (lines.getD i "")).duration * 30)
      = List.replicate ((parseSlide (lines.getD i "")).duration * 30)
          (render (parseSlide (lines.getD i ""))) := by
  refine ⟨generate_frames render lines, ?_⟩
  rw [generate_frames, generate_lineStarts]
  exact frames_extract render lines i hi

/-- Witness for C1 at a concrete two-line script. -/
theorem C1_frame_replication_witness :
    0 < (["a -- duration 1", "b"] : List String).length ∧
    ((generate (fun s => s.color) ["a -- duration 1", "b"]).frames
        = framesOf (fun s => s.color) ["a -- duration 1", "b"] ∧
      ((generate (fun s => s.color) ["a -- duration 1", "b"]).frames.drop
          (((generate (fun s => s.color) ["a -- duration 1", "b"]).lineStarts).getD 0 0)).take
          ((parseSlide ((["a -- duration 1", "b"] : List String).getD 0 "")).duration * 30)
        = List.replicate
            ((parseSlide ((["a -- duration 1", "b"] : List String).getD 0 "")).duration * 30)
            ((fun s : ParsedSlide => s.color) (parseSlide ((["a -- duration 1", "b"] : List String).getD 0 "")))) :=
  ⟨by decide, C1_frame_replication (fun s => s.color) ["a -- duration 1", "b"] 0 (by decide)⟩

/-- C2 (amended): for every non-empty script the markers are monotonically
non-decreasing and the last marker equals the total duration (the sum of all
parsed durations); they are strictly increasing whenever every parsed
duration is positive (a slide with option `duration 0` makes two consecutive
markers equal, see `C2_markers_counterexample`). -/
theorem C2_markers (render : ParsedSlide → String) (lines : List String)
    (h : lines ≠ []) :
    (generate render lines).markers.Pairwise (· ≤ ·) ∧
    (generate render lines).markers.getLast? = some (generate render lines).total ∧
    (generate render lines).total = (dursOf lines).sum ∧
    ((∀ d ∈ dursOf lines, 0 < d) → (generate render lines).markers.Pairwise (· < ·)) := by
  have hds : dursOf lines ≠ [] := by
    intro hc
    exact h (by simpa [dursOf] using congrArg List.length hc)
  refine ⟨?_, ?_, ?_, ?_⟩
  · rw [generate_markers]; exact psums_pairwise_le _ 0
  · rw [generate_markers, generate_total, psums_getLast? _ 0 hds]; simp
  · exact generate_total render lines
  · intro hpos; rw [generate_markers]; exact psums_pairwise_lt _ 0 hpos

/-- Witness for C2 at a concrete two-line script with positive durations. -/
theorem C2_markers_witness :
    (generate (fun s => s.text) ["a", "b -- duration 1"]).markers.Pairwise (· ≤ ·) ∧
    (generate (fun s => s.text) ["a", "b -- duration 1"]).markers.getLast?
      = some (generate (fun s => s.text) ["a", "b -- duration 1"]).total ∧
    (generate (fun s => s.text) ["a", "b -- duration 1"]).markers.Pairwise (· < ·) :=
  have h := C2_markers (fun s => s.text) ["a", "b -- duration 1"] (by decide)
  ⟨h.1, h.2.1, h.2.2.2 (by decide)⟩

/-- C2, as stated, is false: `duration 0` is a parseable option value, and a
slide carrying it repeats the previous cumulative duration, so the markers
sequence `[3, 3]` of the script `["a", "b -- duration 0"]` is not strictly
increasing. -/
theorem C2_markers_counterexample :
    ¬ (generate (fun s => s.color) ["a", "b -- duration 0"]).markers.Pairwise (· < ·) := by
  decide

/-! ## Line layout engine

The second pass of `parseHTML`: greedy wrapping of whole styled segments.
Measured widths are JavaScript numbers, modelled as rationals; the
font-dependent measurement `measureText` is abstracted as a parameter `m`. -/

/-- A bold/italic/underline style combination inherited from ancestors. -/
structure RunStyles where
  bold : Bool
  italic : Bool
  underline : Bool
  deriving DecidableEq, Repr

/-- A styled text segment (the `TextSegment` of `parseHTML`). -/
structure TextSegment where
  text : String
  styles : RunStyles
  isBreak : Bool
  deriving DecidableEq, Repr

/-- Total measured width of a line of segments. -/
def lineWidth (m : TextSegment → ℚ) (l : List TextSegment) : ℚ :=
  (l.map m).sum

/-- State of the wrapping loop: emitted lines, the current line and its
accumulated width (`currentLine` / `currentLineWidth`). -/
structure WrapState where
  lines : List (List TextSegment)
  current : List TextSegment
  width : ℚ

/-- `drawCurrentLine`: emit the current line unless it is empty, then reset
the accumulator. -/
def flushLine (st : WrapState) : WrapState :=
  if st.current.isEmpty then st
  else { lines := st.lines ++ [st.current], current := [], width := 0 }

/-- One iteration of the segment loop: a break segment closes the line; an
ordinary segment first closes the line when it would overflow a non-empty
line, then is appended whole. -/
def wrapStep (m : TextSegment → ℚ) (maxW : ℚ) (st : WrapState) (seg : TextSegment) :
    WrapState :=
  if seg.isBreak then flushLine st
  else
    let w := m seg
    let st' := if maxW < st.width + w ∧ ¬ st.current.isEmpty then flushLine st else st
    { st' with current := st'.current ++ [seg], width := st'.width + w }

/-- The wrapped lines of a segment sequence (with the final flush). -/
def wrapSegs (m : TextSegment → ℚ) (maxW : ℚ) (segs : List TextSegment) :
    List (List TextSegment) :=
  (flushLine (segs.foldl (wrapStep m maxW) ⟨[], [], 0⟩)).lines

/-- A line the wrap may produce: within the width budget, or a single
segment that alone exceeds it. -/
def goodLine (m : TextSegment → ℚ) (maxW : ℚ) (l : List TextSegment) : Prop :=
  lineWidth m l ≤ maxW ∨ (l.length = 1 ∧ maxW < lineWidth m l)

/-- The wrap-loop invariant: emitted lines are good, the width accumulator
tracks the current line, the current line is itself good (or empty), and no
segment has been dropped, duplicated or split. -/
def wrapInv (m : TextSegment → ℚ) (maxW : ℚ) (done : List TextSegment)
    (st : WrapState) : Prop :=
  (∀ l ∈ st.lines, goodLine m maxW l) ∧
  st.width = lineWidth m st.current ∧
  (st.current = [] ∨ goodLine m maxW st.current) ∧
  st.lines.flatten ++ st.current = done.filter (fun s => !s.isBreak)

theorem wrapInv_flush (m : TextSegment → ℚ) (maxW : ℚ) (done : List TextSegment)
    (st : WrapState) (h : wrapInv m maxW done st) :
    (∀ l ∈ (flushLine st).lines, goodLine m maxW l) ∧
    (flushLine st).current = [] ∧ (flushLine st).width = 0 ∨ flushLine st = st := by
  obtain ⟨h1, h2, h3, h4⟩ := h
  by_cases hc : st.current.isEmpty
  · right; simp [flushLine, hc]
  · left
    refine ⟨?_, by simp [flushLine, hc], by simp [flushLine, hc]⟩
    intro l hl
    simp only [flushLine, hc, Bool.false_eq_true, if_false, List.mem_append,
      List.mem_singleton] at hl
    rcases hl with hl | rfl
    · exact h1 l hl
    · rcases h3 with h3 | h3
      · simp [h3] at hc
      · exact h3

theorem wrapStep_inv (m : TextSegment → ℚ) (maxW : ℚ) (done : List TextSegment)
    (st : WrapState) (seg : TextSegment) (h : wrapInv m maxW done st) :
    wrapInv m maxW (done ++ [seg]) (wrapStep m maxW st seg) := by
  obtain ⟨h1, h2, h3, h4⟩ := h
  have flush_lines : ∀ l ∈ (flushLine st).lines, goodLine m maxW l := by
    intro l hl
    by_cases hc : st.current.isEmpty
    · exact h1 l (by simpa [flushLine, hc] using hl)
    · simp only [flushLine, hc, Bool.false_eq_true, if_false, List.mem_append,
        List.mem_singleton] at hl
      rcases hl with hl | rfl
      · exact h1 l hl
      · rcases h3 with h3 | h3
        · simp [h3] at hc
        · exact h3
  have flush_flat : (flushLine st).lines.flatten ++ (flushLine st).current
      = st.lines.flatten ++ st.current := by
    by_cases hc : st.current.isEmpty
    · simp [flushLine, hc]
    · simp [flushLine, hc]
  by_cases hb : seg.isBreak
  · refine ⟨by simpa [wrapStep, hb] using flush_lines, ?_, ?_, ?_⟩
    · by_cases hc : st.current.isEmpty
      · simp only [wrapStep, hb, if_true, flushLine, hc, if_pos]
        exact h2
      · simp [wrapStep, hb, flushLine, hc, lineWidth]
    · by_cases hc : st.current.isEmpty
      · simp only [wrapStep, hb, if_true, flushLine, hc, if_pos]
        exact h3
      · simp [wrapStep, hb, flushLine, hc]
    · simp only [wrapStep, hb, if_true]
      rw [flush_flat, h4, List.filter_append]
      simp [hb]
  · set w := m seg with hw
    by_cases hcond : maxW < st.width + w ∧ ¬ st.current.isEmpty
    · -- overflow on a non-empty line: flush, then the segment starts a new line
      have hstep : wrapStep m maxW st seg =
          { lines := st.lines ++ [st.current], current := [seg], width := 0 + w } := by
        simp only [wrapStep, hb, Bool.false_eq_true, if_false, ← hw, if_pos hcond,
          flushLine, if_neg hcond.2]
        rfl
      refine ⟨?_, ?_, ?_, ?_⟩ <;> rw [hstep]
      · intro l hl
        simp only [List.mem_append, List.mem_singleton] at hl
        rcases hl with hl | rfl
        · exact h1 l hl
        · rcases h3 with h3 | h3
          · simp [h3] at hcond
          · exact h3
      · simp [lineWidth]
      · right
        rcases le_or_lt (lineWidth m [seg]) maxW with hle | hlt
        · exact Or.inl hle
        · exact Or.inr ⟨rfl, hlt⟩
      · have he : (st.lines ++ [st.current]).flatten ++ [seg]
            = (st.lines.flatten ++ st.current) ++ [seg] := by simp
        rw [he, h4, List.filter_append]
        simp [hb]
    · -- the segment extends the current line (or starts the first line)
      have hstep : wrapStep m maxW st seg =
          { st with current := st.current ++ [seg], width := st.width + w } := by
        simp only [wrapStep, hb, Bool.false_eq_true, if_false, ← hw, if_neg hcond]
      refine ⟨?_, ?_, ?_, ?_⟩ <;> rw [hstep]
      · exact h1
      · simp [lineWidth, h2]
      · right
        by_cases hc : st.current.isEmpty
        · have hcur : st.current = [] := by simpa [List.isEmpty_iff] using hc
          rcases le_or_lt (lineWidth m (st.current ++ [seg])) maxW with hle | hlt
          · exact Or.inl hle
          · exact Or.inr ⟨by simp [hcur], hlt⟩
        · left
          have hle : st.width + w ≤ maxW := by
            rcases not_and_or.mp hcond with hx | hx
            · exact le_of_not_lt hx
            · exact absurd (by simpa using hx) hc
          simpa [lineWidth, h2] using hle
      · rw [List.filter_append, ← List.append_assoc, h4]
        simp [hb]

theorem wrapFold_inv (m : TextSegment → ℚ) (maxW : ℚ) :
    ∀ (segs done : List TextSegment) (st : WrapState), wrapInv m maxW done st →
      wrapInv m maxW (done ++ segs) (segs.foldl (wrapStep m maxW) st) := by
  intro segs
  induction segs with
  | nil => intro done st h; simpa using h
  | cons s ss ih =>
    intro done st h
    have h2 := ih (done ++ [s]) _ (wrapStep_inv m maxW done st s h)
    simpa using h2

/-- C3: the greedy wrap never produces a line wider than `maxWidth` except a
line holding exactly one segment that alone exceeds `maxWidth`, and the
produced lines are exactly the non-break segments in order — no segment is
dropped, duplicated, or split apart. -/
theorem C3_wrap_boundary (m : TextSegment → ℚ) (maxW : ℚ) (segs : List TextSegment) :
    (∀ l ∈ wrapSegs m maxW segs,
      lineWidth m l ≤ maxW ∨ (l.length = 1 ∧ maxW < lineWidth m l)) ∧
    (wrapSegs m maxW segs).flatten = segs.filter (fun s => !s.isBreak) := by
  have h0 : wrapInv m maxW [] ⟨[], [], 0⟩ :=
    ⟨by simp, by simp [lineWidth], Or.inl rfl, by simp⟩
  obtain ⟨h1, h2, h3, h4⟩ := by simpa using wrapFold_inv m maxW segs [] _ h0
  set st := segs.foldl (wrapStep m maxW) ⟨[], [], 0⟩ with hst
  constructor
  · intro l hl
    by_cases hc : st.current.isEmpty
    · exact h1 l (by simpa [wrapSegs, ← hst, flushLine, hc] using hl)
    · simp only [wrapSegs, ← hst, flushLine, hc, Bool.false_eq_true, if_false,
        List.mem_append, List.mem_singleton] at hl
      rcases hl with hl | rfl
      · exact h1 l hl
      · rcases h3 with h3 | h3
        · simp [h3] at hc
        · exact h3
  · by_cases hc : st.current.isEmpty
    · have hcur : st.current = [] := by simpa [List.isEmpty_iff] using hc
      rw [wrapSegs, ← hst]
      simp only [flushLine, hc, if_true]
      simpa [hcur] using h4
    · rw [wrapSegs, ← hst]
      simp only [flushLine, hc, Bool.false_eq_true, if_false]
      simpa using h4

/-- Witness for C3: a two-word segment list against width budget 7. -/
theorem C3_wrap_boundary_witness :
    (lineWidth (fun s => (s.text.length : ℚ)) [⟨"hello", ⟨false, false, false⟩, false⟩] ≤ 7 ∨
      ([⟨"hello", ⟨false, false, false⟩, false⟩] : List TextSegment).length = 1 ∧
        (7 : ℚ) < lineWidth (fun s => (s.text.length : ℚ)) [⟨"hello", ⟨false, false, false⟩, false⟩]) ∧
    (wrapSegs (fun s => (s.text.length : ℚ)) 7
        [⟨"hello", ⟨false, false, false⟩, false⟩, ⟨"world", ⟨false, false, false⟩, false⟩]).flatten
      = ([⟨"hello", ⟨false, false, false⟩, false⟩, ⟨"world", ⟨false, false, false⟩, false⟩] :
          List TextSegment).filter (fun s => !s.isBreak) := by
  have h := C3_wrap_boundary (fun s => (s.text.length : ℚ)) 7
    [⟨"hello", ⟨false, false, false⟩, false⟩, ⟨"world", ⟨false, false, false⟩, false⟩]
  refine ⟨h.1 [⟨"hello", ⟨false, false, false⟩, false⟩] ?_, h.2⟩
  norm_num [wrapSegs, wrapStep, flushLine, List.foldl,
    show ("hello".length = 5) from rfl, show ("world".length = 5) from rfl]

/-! ## Export pipeline: early guard, progress reporting, transcode, cleanup

`exportToVideo` from `src/utils/videoExport.ts`, modelled as event traces:
the synchronous prefix (empty-frames guard and resource acquisition), the
recording progress loop, the ffmpeg log-driven transcode progress and the
final transcode/cleanup sequence. -/

/-- Resources acquired by the synchronous head of `exportToVideo`. -/
inductive ExpEvent where
  | createdCanvas
  | gotContext
  | createdStream
  | createdRecorder
  deriving DecidableEq, Repr

/-- Result of the synchronous head: acquired resources and the error
thrown, if any. -/
structure HeadResult where
  events : List ExpEvent
  error : Option String
  deriving DecidableEq, Repr

/-- The synchronous head of `exportToVideo`: the `!frames.length` guard runs
first; only then are the offscreen canvas, the 2d context, the capture
stream and the `MediaRecorder` created.  `ctxOk` abstracts whether
`getContext('2d')` returns a context. -/
def exportHead (ctxOk : Bool) (frames : List String) : HeadResult :=
  if frames.length = 0 then { events := [], error := some "No frames to export" }
  else if ctxOk then
    { events := [.createdCanvas, .gotContext, .createdStream, .createdRecorder]
      error := none }
  else { events := [.createdCanvas], error := some "Could not get canvas context" }

/-- C4: exporting an empty frame list fails with the descriptive error
`No frames to export` before any drawing surface, stream or capture session
is created (the event trace is empty); a non-empty frame list never raises
that error. -/
theorem C4_empty_frames_guard (ctxOk : Bool) (frames : List String) :
    (frames = [] →
      exportHead ctxOk frames = { events := [], error := some "No frames to export" }) ∧
    (frames ≠ [] → (exportHead ctxOk frames).error ≠ some "No frames to export") := by
  constructor
  · rintro rfl
    simp [exportHead]
  · intro h
    have hl : frames.length ≠ 0 := fun hc => h (List.length_eq_zero.mp hc)
    cases hctx : ctxOk <;> simp [exportHead, hl]

/-- Witness for C4 on the empty and a singleton frame list. -/
theorem C4_empty_frames_guard_witness :
    exportHead true [] = { events := [], error := some "No frames to export" } ∧
    (exportHead true ["f"]).error ≠ some "No frames to export" :=
  ⟨(C4_empty_frames_guard true []).1 rfl,
    (C4_empty_frames_guard true ["f"]).2 (by decide)⟩

/-- JavaScript `Math.round` on a rational: floor of `q + 1/2`
(round half toward positive infinity). -/
def jsRound (q : ℚ) : ℤ := ⌊q + 1 / 2⌋

/-- `Math.min(Math.round((currentSeconds / 5) * 100), 100)`: the percent the
ffmpeg log handler derives from a parsed time marker; the divisor is the
hard-coded 5-second assumed duration. -/
def transcodePercent (s : Nat) : ℤ := min (jsRound ((s : ℚ) / 5 * 100)) 100

/-- Single-position matcher for `/time=(\d{2}:\d{2}:\d{2})/`, evaluated by
`parseTime`: `hours * 3600 + minutes * 60 + seconds`. -/
def timeAt : List Char → Option Nat
  | 't' :: 'i' :: 'm' :: 'e' :: '=' :: h1 :: h2 :: ':' :: m1 :: m2 :: ':' :: s1 :: s2 :: _ =>
    if isDigit h1 && isDigit h2 && isDigit m1 && isDigit m2 && isDigit s1 && isDigit s2 then
      some (digitsVal [h1, h2] * 3600 + digitsVal [m1, m2] * 60 + digitsVal [s1, s2])
    else none
  | _ => none

/-- The `message.match(/time=(\d{2}:\d{2}:\d{2})/)` parse of one log line. -/
def findTime (msg : String) : Option Nat := scanFor timeAt msg.data

/-- The ffmpeg log handler folded over the emitted log lines: starting from
`lastProgress`, a line with a time marker computes its percent and forwards
it only when strictly greater than the last forwarded value. -/
def procMsgs : ℤ → List String → List ℤ
  | _, [] => []
  | last, msg :: ms =>
    match findTime msg with
    | none => procMsgs last ms
    | some s =>
      if last < transcodePercent s then
        transcodePercent s :: procMsgs (transcodePercent s) ms
      else procMsgs last ms

/-- Every percent the `Converting to MP4` stage reports: the initial 0, the
log-driven values (from `lastProgress = 0`), and the unconditional final
100 after `ffmpeg.exec` returns. -/
def transcodeReports (msgs : List String) : List ℤ :=
  0 :: procMsgs 0 msgs ++ [100]

/-- The single report of the `Initializing` stage. -/
def initialReports : List ℚ := [0]

/-- The `Recording frames` stage: each `drawNextFrame` invocation first
checks exhaustion, then reports `frameIndex / frames.length * 100`; a tick
advances the index exactly when the timestamp-driven pacing lets it draw. -/
def recordingReports (total : Nat) : Nat → List Bool → List ℚ
  | _, [] => []
  | idx, b :: bs =>
    if total ≤ idx then []
    else ((idx : ℚ) / (total : ℚ) * 100) ::
      recordingReports total (if b then idx + 1 else idx) bs

theorem transcodePercent_eq (s : Nat) : transcodePercent s = min (20 * (s : ℤ)) 100 := by
  have h1 : ((s : ℚ) / 5 * 100) = ((20 * s : ℤ) : ℚ) := by push_cast; ring
  have h2 : jsRound ((s : ℚ) / 5 * 100) = 20 * s := by
    rw [h1, jsRound, Int.floor_eq_iff]
    constructor
    · norm_num
    · push_cast; norm_num
  simp [transcodePercent, h2]

theorem procMsgs_mem : ∀ (msgs : List String) (last : ℤ) (x : ℤ),
    x ∈ procMsgs last msgs → last < x ∧ x ≤ 100 := by
  intro msgs
  induction msgs with
  | nil => intro last x hx; simp [procMsgs] at hx
  | cons msg ms ih =>
    intro last x hx
    simp only [procMsgs] at hx
    rcases hft : findTime msg with _ | s
    · rw [hft] at hx
      exact ih last x hx
    · rw [hft] at hx
      simp only at hx
      by_cases hlt : last < transcodePercent s
      · rw [if_pos hlt] at hx
        rcases List.mem_cons.mp hx with rfl | hx
        · refine ⟨hlt, ?_⟩
          rw [transcodePercent_eq]
          omega
        · have := ih _ x hx
          exact ⟨lt_trans hlt this.1, this.2⟩
      · rw [if_neg hlt] at hx
        exact ih last x hx

theorem procMsgs_pairwise : ∀ (msgs : List String) (last : ℤ),
    (procMsgs last msgs).Pairwise (· < ·) := by
  intro msgs
  induction msgs with
  | nil => intro last; simp [procMsgs]
  | cons msg ms ih =>
    intro last
    simp only [procMsgs]
    rcases hft : findTime msg with _ | s
    · exact ih last
    · simp only
      by_cases hlt : last < transcodePercent s
      · rw [if_pos hlt]
        exact List.pairwise_cons.mpr
          ⟨fun x hx => (procMsgs_mem ms _ x hx).1, ih _⟩
      · rw [if_neg hlt]
        exact ih last

theorem chain_le_sandwich : ∀ (l : List ℤ) (x : ℤ), l.Pairwise (· < ·) →
    (∀ y ∈ l, y ≤ 100) → x ≤ 100 → (∀ y ∈ l, x ≤ y) →
    List.Chain' (· ≤ ·) (x :: l ++ [100]) := by
  intro l
  induction l with
  | nil =>
    intro x _ _ hx _
    simpa [List.chain'_cons] using hx
  | cons a l ih =>
    intro x hp hb hx100 hlow
    have hp' := List.pairwise_cons.mp hp
    have hrest := ih a hp'.2 (fun y hy => hb y (by simp [hy])) (hb a (by simp))
      (fun y hy => le_of_lt (hp'.1 y hy))
    have hgoal : List.Chain' (· ≤ ·) (x :: a :: (l ++ [100])) := by
      rw [List.chain'_cons]
      exact ⟨hlow a (by simp), hrest⟩
    simpa using hgoal

theorem recStep_le (total i : Nat) (b : Bool) (h : 0 < total) :
    (i : ℚ) / total * 100 ≤ ((if b then i + 1 else i : Nat) : ℚ) / total * 100 := by
  have ht : (0 : ℚ) < total := by exact_mod_cast h
  have hle : (i : ℚ) ≤ ((if b then i + 1 else i : Nat) : ℚ) := by
    by_cases hbv : b <;> simp [hbv]
  exact mul_le_mul_of_nonneg_right ((div_le_div_iff_of_pos_right ht).mpr hle) (by norm_num)

theorem recordingReports_low (total : Nat) : ∀ (bs : List Bool) (i : Nat)
    (q : ℚ), q ∈ recordingReports total i bs → (i : ℚ) / total * 100 ≤ q := by
  intro bs
  induction bs with
  | nil => intro i q hq; simp [recordingReports] at hq
  | cons b bs ih =>
    intro i q hq
    simp only [recordingReports] at hq
    by_cases hg : total ≤ i
    · rw [if_pos hg] at hq; simp at hq
    · rw [if_neg hg] at hq
      rcases List.mem_cons.mp hq with rfl | hq
      · exact le_refl _
      · have h2 := ih _ q hq
        refine le_trans ?_ h2
        exact recStep_le total i b (lt_of_le_of_lt (Nat.zero_le i) (lt_of_not_le hg))

theorem recordingReports_chain (total : Nat) : ∀ (bs : List Bool) (i : Nat),
    List.Chain' (· ≤ ·) (recordingReports total i bs) := by
  intro bs
  induction bs with
  | nil => intro i; simp [recordingReports]
  | cons b bs ih =>
    intro i
    simp only [recordingReports]
    by_cases hg : total ≤ i
    · simp [if_pos hg]
    · rw [if_neg hg]
      refine List.chain'_cons'.mpr ⟨?_, ih _⟩
      intro y hy
      have hmem : y ∈ recordingReports total (if b then i + 1 else i) bs :=
        List.mem_of_mem_head? hy
      have hlow := recordingReports_low total bs _ y hmem
      exact le_trans
        (recStep_le total i b (lt_of_le_of_lt (Nat.zero_le i) (lt_of_not_le hg))) hlow

/-- C5: within every stage the reported percent sequence is monotonically
non-decreasing; during the transcode stage every value derived from a time
marker lies in `[0, 100]` and is forwarded only when strictly greater than
the last reported value (so the forwarded values are strictly increasing). -/
theorem C5_progress_monotone (total : Nat) (ticks : List Bool) (msgs : List String) :
    List.Chain' (· ≤ ·) initialReports ∧
    List.Chain' (· ≤ ·) (recordingReports total 0 ticks) ∧
    List.Chain' (· ≤ ·) (transcodeReports msgs) ∧
    (procMsgs 0 msgs).Pairwise (· < ·) ∧
    (∀ p ∈ procMsgs 0 msgs, 0 ≤ p ∧ p ≤ 100) := by
  refine ⟨by simp [initialReports], recordingReports_chain total ticks 0, ?_, ?_, ?_⟩
  · rw [transcodeReports]
    have hmem := procMsgs_mem msgs 0
    exact chain_le_sandwich (procMsgs 0 msgs) 0 (procMsgs_pairwise msgs 0)
      (fun y hy => (hmem y hy).2) (by norm_num)
      (fun y hy => le_of_lt (hmem y hy).1)
  · exact procMsgs_pairwise msgs 0
  · intro p hp
    have h := procMsgs_mem msgs 0 p hp
    exact ⟨le_of_lt h.1, h.2⟩

/-- Witness for C5 at a concrete run: two recording ticks and one ffmpeg
log line carrying `time=00:00:01` (which forwards percent 20). -/
theorem C5_progress_monotone_witness :
    List.Chain' (· ≤ ·) (recordingReports 2 0 [true, true]) ∧
    List.Chain' (· ≤ ·) (transcodeReports ["time=00:00:01"]) ∧
    (0 ≤ transcodePercent 1 ∧ transcodePercent 1 ≤ 100) := by
  have h := C5_progress_monotone 2 [true, true] ["time=00:00:01"]
  refine ⟨h.2.1, h.2.2.1, h.2.2.2.2 (transcodePercent 1) ?_⟩
  have hft : findTime "time=00:00:01" = some 1 := by decide
  have hp : transcodePercent 1 = 20 := by rw [transcodePercent_eq]; decide
  simp [procMsgs, hft, hp]

/-- C10: each transcode log line bearing a `time=HH:MM:SS` marker maps to
the percent `min(round(seconds / 5 * 100), 100)` — the divisor is the
hard-coded 5-second assumed duration, independent of the real video length,
so every marker at or beyond 5 seconds yields 100 — and after `ffmpeg.exec`
returns, a final 100 is reported unconditionally (the reports of the stage
always end in 100). -/
theorem C10_transcode_percent (s : Nat) (msg : String) (ms msgs : List String)
    (last : ℤ) (hs : findTime msg = some s) :
    transcodePercent s = min (jsRound ((s : ℚ) / 5 * 100)) 100 ∧
    (5 ≤ s → transcodePercent s = 100) ∧
    (procMsgs last (msg :: ms) =
      if last < transcodePercent s then
        transcodePercent s :: procMsgs (transcodePercent s) ms
      else procMsgs last ms) ∧
    (transcodeReports msgs).getLast? = some 100 := by
  refine ⟨rfl, ?_, ?_, ?_⟩
  · intro h5
    rw [transcodePercent_eq]
    omega
  · simp [procMsgs, hs]
  · rw [transcodeReports, List.getLast?_concat]

/-- Witness for C10: a 6-second time marker (video longer than 5 seconds)
reports 100. -/
theorem C10_transcode_percent_witness :
    findTime "x time=00:00:06 y" = some 6 ∧
    transcodePercent 6 = 100 ∧
    (transcodeReports []).getLast? = some 100 :=
  have h := C10_transcode_percent 6 "x time=00:00:06 y" [] [] 0 (by decide)
  ⟨by decide, h.2.1 (by decide), h.2.2.2⟩

/-- Filesystem-level events of the transcode phase of `exportToVideo`. -/
inductive FsEvent where
  | writeInput
  | execTranscode
  | readOutput
  | deleteInput
  | deleteOutput
  | download
  deriving DecidableEq, Repr

/-- The transcode phase of `exportToVideo` as an event trace plus outcome.
`execOk` abstracts whether `ffmpeg.exec` succeeds and `readOk` whether
`readFile('output.mp4')` succeeds; a failure anywhere inside the `try`
block jumps to the `catch`, which rethrows `Failed to convert video`.
The two `deleteFile` calls sit inside the `try` block after the successful
read, and the `catch` block performs no deletion. -/
def transcodePhase (execOk readOk : Bool) : List FsEvent × Option String :=
  if !execOk then
    ([.writeInput, .execTranscode], some "Failed to convert video")
  else if !readOk then
    ([.writeInput, .execTranscode, .readOutput], some "Failed to convert video")
  else
    ([.writeInput, .execTranscode, .readOutput, .deleteInput, .deleteOutput, .download],
      none)

/-- C9 (amended): the intermediate files `input.webm` / `output.mp4` are
deleted only on the success path (before the download and the return); when
the transcode or the output read fails, the error is surfaced to the caller
with no deletion on that exit path. -/
theorem C9_cleanup (execOk readOk : Bool) :
    (execOk = true → readOk = true →
      transcodePhase execOk readOk =
        ([.writeInput, .execTranscode, .readOutput, .deleteInput, .deleteOutput,
          .download], none)) ∧
    (execOk = false ∨ readOk = false →
      (transcodePhase execOk readOk).2 = some "Failed to convert video" ∧
      FsEvent.deleteInput ∉ (transcodePhase execOk readOk).1 ∧
      FsEvent.deleteOutput ∉ (transcodePhase execOk readOk).1) := by
  cases execOk <;> cases readOk <;> refine ⟨?_, ?_⟩ <;> decide

/-- Witness for C9 on the success path and the exec-failure path. -/
theorem C9_cleanup_witness :
    transcodePhase true true =
      ([.writeInput, .execTranscode, .readOutput, .deleteInput, .deleteOutput,
        .download], none) ∧
    ((transcodePhase false true).2 = some "Failed to convert video" ∧
      FsEvent.deleteInput ∉ (transcodePhase false true).1 ∧
      FsEvent.deleteOutput ∉ (transcodePhase false true).1) :=
  ⟨(C9_cleanup true true).1 rfl rfl, (C9_cleanup false true).2 (Or.inl rfl)⟩

/-- C9, as stated, is false: on a transcode (`ffmpeg.exec`) failure the
operation rethrows `Failed to convert video` while neither `input.webm` nor
`output.mp4` has been deleted — the `deleteFile` calls live inside the
`try` block after the read, and the `catch` block does not perform them. -/
theorem C9_cleanup_counterexample :
    (transcodePhase false true).2 = some "Failed to convert video" ∧
    FsEvent.deleteInput ∉ (transcodePhase false true).1 ∧
    FsEvent.deleteOutput ∉ (transcodePhase false true).1 := by
  decide

/-! ## Markup tokenizer

The first pass of `parseHTML`: a depth-first walk of the parsed markup tree
accumulating inherited bold/italic/underline flags, emitting a break segment
for `<br>` and, for text nodes, one segment per part of the
`split(/(\s+)/)` decomposition (spaces preserved as their own segments). -/

/-- A parsed markup node (`tempDiv.childNodes`): a DOM text node, or an
element with its (already upper-cased) tag name and children. -/
inductive HNode where
  | text (s : String)
  | elem (tag : String) (children : List HNode)
  deriving Repr

/-- `split(/(\s+)/)` with empty parts dropped: maximal runs of characters
agreeing on whitespace-ness. -/
def chunkRuns : List Char → List (List Char)
  | [] => []
  | c :: cs =>
    (c :: cs.takeWhile (fun d => isWsChar d == isWsChar c)) ::
      chunkRuns (cs.dropWhile (fun d => isWsChar d == isWsChar c))
termination_by l => l.length
decreasing_by
  simp only [List.length_cons]
  exact Nat.lt_succ_of_le (List.dropWhile_sublist _).length_le

mutual

/-- `processNode`: text nodes emit one segment per whitespace-split part;
`BR` emits a break segment and returns; `B`/`I`/`U` extend the inherited
style set; unknown tags are transparent. -/
def tokenizeNode (st : RunStyles) : HNode → List TextSegment
  | .text s =>
    (chunkRuns s.data).map
      (fun run => { text := String.mk run, styles := st, isBreak := false })
  | .elem tag cs =>
    if tag = "BR" then [{ text := "", styles := st, isBreak := true }]
    else
      tokenizeNodes
        (if tag = "B" then { st with bold := true }
          else if tag = "I" then { st with italic := true }
          else if tag = "U" then { st with underline := true }
          else st) cs

/-- The walk over a node list (`for (const node of elements)`). -/
def tokenizeNodes (st : RunStyles) : List HNode → List TextSegment
  | [] => []
  | n :: ns => tokenizeNode st n ++ tokenizeNodes st ns

end

/-- ASCII upper-casing of one character (the fragment of JavaScript
`toUpperCase` the script language exercises). -/
def asciiUpper (c : Char) : Char :=
  if c = 'a' then 'A' else if c = 'b' then 'B' else if c = 'c' then 'C'
  else if c = 'd' then 'D' else if c = 'e' then 'E' else if c = 'f' then 'F'
  else if c = 'g' then 'G' else if c = 'h' then 'H' else if c = 'i' then 'I'
  else if c = 'j' then 'J' else if c = 'k' then 'K' else if c = 'l' then 'L'
  else if c = 'm' then 'M' else if c = 'n' then 'N' else if c = 'o' then 'O'
  else if c = 'p' then 'P' else if c = 'q' then 'Q' else if c = 'r' then 'R'
  else if c = 's' then 'S' else if c = 't' then 'T' else if c = 'u' then 'U'
  else if c = 'v' then 'V' else if c = 'w' then 'W' else if c = 'x' then 'X'
  else if c = 'y' then 'Y' else if c = 'z' then 'Z' else c

/-- Upper-casing of a string, character by character. -/
def upperStr (s : String) : String := String.mk (s.data.map asciiUpper)

/-- A segment with its text upper-cased (styles and break flag unchanged). -/
def upperSeg (seg : TextSegment) : TextSegment := { seg with text := upperStr seg.text }

mutual

/-- Modelled from the spec: applying `toUpperCase` to the slide text before
`innerHTML` parsing upper-cases every text node while leaving the tree
shape and the (case-insensitive, already canonicalized) tag names alone. -/
def upperNode : HNode → HNode
  | .text s => .text (upperStr s)
  | .elem tag cs => .elem tag (upperForest cs)

/-- `upperNode` over a node list. -/
def upperForest : List HNode → List HNode
  | [] => []
  | n :: ns => upperNode n :: upperForest ns

end

set_option maxHeartbeats 1000000 in
theorem isWsChar_asciiUpper (c : Char) : isWsChar (asciiUpper c) = isWsChar c := by
  unfold asciiUpper
  rcases eq_or_ne c 'a' with rfl | ha
  · rfl
  rw [if_neg ha]
  rcases eq_or_ne c 'b' with rfl | hb
  · rfl
  rw [if_neg hb]
  rcases eq_or_ne c 'c' with rfl | hc
  · rfl
  rw [if_neg hc]
  rcases eq_or_ne c 'd' with rfl | hd
  · rfl
  rw [if_neg hd]
  rcases eq_or_ne c 'e' with rfl | he
  · rfl
  rw [if_neg he]
  rcases eq_or_ne c 'f' with rfl | hf
  · rfl
  rw [if_neg hf]
  rcases eq_or_ne c 'g' with rfl | hg
  · rfl
  rw [if_neg hg]
  rcases eq_or_ne c 'h' with rfl | hh
  · rfl
  rw [if_neg hh]
  rcases eq_or_ne c 'i' with rfl | hi
  · rfl
  rw [if_neg hi]
  rcases eq_or_ne c 'j' with rfl | hj
  · rfl
  rw [if_neg hj]
  rcases eq_or_ne c 'k' with rfl | hk
  · rfl
  rw [if_neg hk]
  rcases eq_or_ne c 'l' with rfl | hl
  · rfl
  rw [if_neg hl]
  rcases eq_or_ne c 'm' with rfl | hm
  · rfl
  rw [if_neg hm]
  rcases eq_or_ne c 'n' with rfl | hn
  · rfl
  rw [if_neg hn]
  rcases eq_or_ne c 'o' with rfl | ho
  · rfl
  rw [if_neg ho]
  rcases eq_or_ne c 'p' with rfl | hp
  · rfl
  rw [if_neg hp]
  rcases eq_or_ne c 'q' with rfl | hq
  · rfl
  rw [if_neg hq]
  rcases eq_or_ne c 'r' with rfl | hr
  · rfl
  rw [if_neg hr]
  rcases eq_or_ne c 's' with rfl | hs
  · rfl
  rw [if_neg hs]
  rcases eq_or_ne c 't' with rfl | ht
  · rfl
  rw [if_neg ht]
  rcases eq_or_ne c 'u' with rfl | hu
  · rfl
  rw [if_neg hu]
  rcases eq_or_ne c 'v' with rfl | hv
  · rfl
  rw [if_neg hv]
  rcases eq_or_ne c 'w' with rfl | hw
  · rfl
  rw [if_neg hw]
  rcases eq_or_ne c 'x' with rfl | hx
  · rfl
  rw [if_neg hx]
  rcases eq_or_ne c 'y' with rfl | hy
  · rfl
  rw [if_neg hy]
  rcases eq_or_ne c 'z' with rfl | hz
  · rfl
  rw [if_neg hz]


theorem chunkRuns_map_upper : ∀ l : List Char,
    chunkRuns (l.map asciiUpper) = (chunkRuns l).map (List.map asciiUpper) := by
  intro l
  induction l using chunkRuns.induct with
  | case1 => simp [chunkRuns]
  | case2 c cs ih =>
    have hpred : ∀ d : Char,
        (isWsChar (asciiUpper d) == isWsChar (asciiUpper c)) = (isWsChar d == isWsChar c) := by
      intro d
      rw [isWsChar_asciiUpper, isWsChar_asciiUpper]
    rw [List.map_cons, chunkRuns, chunkRuns]
    rw [List.takeWhile_map, List.dropWhile_map]
    simp only [Function.comp_def, hpred]
    rw [ih]
    simp

mutual

theorem tokenizeNode_upper (st : RunStyles) : (n : HNode) →
    tokenizeNode st (upperNode n) = (tokenizeNode st n).map upperSeg
  | .text s => by
    simp only [upperNode, tokenizeNode, upperStr, chunkRuns_map_upper, List.map_map]
    rfl
  | .elem tag cs => by
    by_cases hbr : tag = "BR"
    · simp [upperNode, upperForest, tokenizeNode, hbr, upperSeg, upperStr]
    · simp only [upperNode, tokenizeNode, if_neg hbr]
      exact tokenizeNodes_upper _ cs

theorem tokenizeNodes_upper (st : RunStyles) : (ns : List HNode) →
    tokenizeNodes st (upperForest ns) = (tokenizeNodes st ns).map upperSeg
  | [] => by simp [upperForest, tokenizeNodes]
  | n :: ns => by
    simp only [upperForest, tokenizeNodes, List.map_append]
    rw [tokenizeNode_upper st n, tokenizeNodes_upper st ns]

end

/-- Modelled from the spec: the source tree under `src/` predates the
`uppercase` option; per the spec, when the slide's `uppercase` flag is set
the slide's text is case-folded to upper case before tokenization, so the
tokenizer runs on the upper-cased markup tree (`doc` stands for the DOM
produced by `innerHTML` from the slide's text). -/
def slideSegments (s : ParsedSlide) (doc : List HNode) : List TextSegment :=
  tokenizeNodes ⟨false, false, false⟩ (if s.uppercase then upperForest doc else doc)

/-- C7: for every slide with the uppercase option set, the segment list the
renderer measures and draws is exactly the segment list of the original
markup with every segment's text upper-cased — the case fold happens before
tokenization, so width measurement and drawing both see the final
upper-cased text. -/
theorem C7_uppercase_before_tokenize (s : ParsedSlide) (doc : List HNode)
    (h : s.uppercase = true) :
    slideSegments s doc
      = (tokenizeNodes ⟨false, false, false⟩ doc).map upperSeg := by
  rw [slideSegments, if_pos h]
  exact tokenizeNodes_upper _ doc

/-- Witness for C7: the slide `"hi -- uppercase"` over the one-node markup
tree `hi`. -/
theorem C7_uppercase_before_tokenize_witness :
    (parseSlide "hi -- uppercase").uppercase = true ∧
    slideSegments (parseSlide "hi -- uppercase") [HNode.text "hi"]
      = (tokenizeNodes ⟨false, false, false⟩ [HNode.text "hi"]).map upperSeg :=
  ⟨by decide,
    C7_uppercase_before_tokenize (parseSlide "hi -- uppercase") [HNode.text "hi"]
      (by decide)⟩

/-! ## Parser totality and defaults -/

theorem scanFor_hasSub {α : Type} (f : List Char → Option α) (pat : List Char)
    (hf : ∀ t, (f t).isSome → pat.isPrefixOf t = true) :
    ∀ l : List Char, (scanFor f l).isSome → hasSub pat l = true := by
  intro l
  induction l with
  | nil =>
    intro h
    rw [scanFor] at h
    simpa [hasSub] using hf [] h
  | cons c rest ih =>
    intro h
    rw [scanFor] at h
    cases hfc : f (c :: rest) with
    | some a => simp [hasSub, hf (c :: rest) (by simp [hfc])]
    | none =>
      rw [hfc] at h
      simp [hasSub, ih h]

theorem durAt_isPrefix : ∀ t : List Char,
    (durAt t).isSome → "duration".data.isPrefixOf t = true := by
  intro t h
  by_cases hp : "duration".data.isPrefixOf t
  · exact hp
  · simp [durAt, hp] at h

theorem colorAt_isPrefix : ∀ t : List Char,
    (colorAt t).isSome → "color".data.isPrefixOf t = true := by
  intro t h
  by_cases hp : "color".data.isPrefixOf t
  · exact hp
  · simp [colorAt, hp] at h

theorem sizeAt_isPrefix : ∀ t : List Char,
    (sizeAt t).isSome → "text".data.isPrefixOf t = true := by
  intro t h
  by_cases hp : "text".data.isPrefixOf t
  · exact hp
  · simp [sizeAt, hp] at h

/-- C6: parsing a script line is total — `parseSlide` is a total function —
and each option falls back to its default when its pattern does not match
(duration 3, color `#fff`, size multiplier 1 through the
`{xs: 0.5, sm: 0.75, base: 1, lg: 1.5, xl: 2}` table, uppercase false); in
particular an options string that does not even contain the option token
cannot match, so lines with missing option tokens get all defaults. -/
theorem C6_parser_defaults (line : String) :
    (matchDuration (optsPart line.data) = none → (parseSlide line).duration = 3) ∧
    (matchColor (optsPart line.data) = none → (parseSlide line).color = "#fff") ∧
    (matchTextSize (optsPart line.data) = none → (parseSlide line).sizeMult = 1) ∧
    (matchUppercase (optsPart line.data) = false → (parseSlide line).uppercase = false) ∧
    (hasSub "duration".data (optsPart line.data) = false → (parseSlide line).duration = 3) ∧
    (hasSub "color".data (optsPart line.data) = false → (parseSlide line).color = "#fff") ∧
    (hasSub "text".data (optsPart line.data) = false → (parseSlide line).sizeMult = 1) ∧
    (hasSub "uppercase".data (optsPart line.data) = false →
      (parseSlide line).uppercase = false) ∧
    (∀ tok, matchTextSize (optsPart line.data) = some tok →
      (parseSlide line).sizeMult = sizeMultOf tok) := by
  have hdur : matchDuration (optsPart line.data) = none →
      (parseSlide line).duration = 3 := by
    intro h; simp [parseSlide, h]
  have hcol : matchColor (optsPart line.data) = none →
      (parseSlide line).color = "#fff" := by
    intro h; simp [parseSlide, h]
  have hsize : matchTextSize (optsPart line.data) = none →
      (parseSlide line).sizeMult = 1 := by
    intro h; simp [parseSlide, h]
  have hup : matchUppercase (optsPart line.data) = false →
      (parseSlide line).uppercase = false := by
    intro h; simp [parseSlide, h]
  refine ⟨hdur, hcol, hsize, hup, ?_, ?_, ?_, ?_, ?_⟩
  · intro h
    refine hdur ?_
    cases hm : matchDuration (optsPart line.data) with
    | none => rfl
    | some v =>
      have := scanFor_hasSub durAt "duration".data durAt_isPrefix
        (optsPart line.data) (by simp [matchDuration] at hm ⊢; simp [hm])
      rw [this] at h
      cases h
  · intro h
    refine hcol ?_
    cases hm : matchColor (optsPart line.data) with
    | none => rfl
    | some v =>
      have := scanFor_hasSub colorAt "color".data colorAt_isPrefix
        (optsPart line.data) (by simp [matchColor] at hm ⊢; simp [hm])
      rw [this] at h
      cases h
  · intro h
    refine hsize ?_
    cases hm : matchTextSize (optsPart line.data) with
    | none => rfl
    | some v =>
      have := scanFor_hasSub sizeAt "text".data sizeAt_isPrefix
        (optsPart line.data) (by simp [matchTextSize] at hm ⊢; simp [hm])
      rw [this] at h
      cases h
  · intro h
    rw [matchUppercase] at hup
    exact hup h
  · intro tok htok
    simp [parseSlide, htok]

/-- Witness for C6: a line with no options separator at all, and a line
whose text part mentions `duration` while the options string after the
first `--` does not — the text part must not leak into option matching,
so the duration stays the default 3. -/
theorem C6_parser_defaults_witness :
    (parseSlide "Hello World").duration = 3 ∧
    (parseSlide "Hello World").color = "#fff" ∧
    (parseSlide "Hello World").sizeMult = 1 ∧
    (parseSlide "Hello World").uppercase = false ∧
    (parseSlide "duration 5 -- color red").duration = 3 ∧
    (parseSlide "I like uppercase -- duration 2").uppercase = false :=
  have h := C6_parser_defaults "Hello World"
  have h2 := C6_parser_defaults "duration 5 -- color red"
  have h3 := C6_parser_defaults "I like uppercase -- duration 2"
  ⟨h.1 (by decide), h.2.1 (by decide), h.2.2.1 (by decide),
    h.2.2.2.1 (by decide), h2.1 (by decide), h3.2.2.2.1 (by decide)⟩

/-! ## Frame renderer cache -/

/-- Modelled from the spec: the source tree under `src/` predates the frame
cache; per the spec the cache key is the tuple of every input that affects
pixel output: text content after uppercasing, duration, color, size class,
uppercase flag, width, height, selected font family, and font-ready CSS
class. -/
structure CacheKey where
  text : String
  duration : Nat
  color : String
  sizeClass : String
  uppercase : Bool
  width : Nat
  height : Nat
  fontFamily : String
  fontClass : String
  deriving DecidableEq, Repr

/-- Result of one cached render: the encoded frame, the cache afterwards,
and whether the render was served from the cache (no redraw). -/
structure CacheResult where
  frame : String
  cache : List (CacheKey × String)
  hit : Bool
  deriving Repr

/-- Modelled from the spec: the frame renderer consults the key→image map
before drawing — a hit returns the previously encoded image without
redrawing, a miss draws, encodes (`draw`) and stores under the full key. -/
def renderCached (draw : CacheKey → String) (cache : List (CacheKey × String))
    (k : CacheKey) : CacheResult :=
  match cache.lookup k with
  | some img => { frame := img, cache := cache, hit := true }
  | none => { frame := draw k, cache := (k, draw k) :: cache, hit := false }

/-- C8: rendering the same slide twice with an identical cache-key tuple is
a cache hit on the second render and yields byte-identical encoded frames. -/
theorem C8_cache_idempotent (draw : CacheKey → String)
    (cache : List (CacheKey × String)) (k : CacheKey) :
    (renderCached draw (renderCached draw cache k).cache k).hit = true ∧
    (renderCached draw (renderCached draw cache k).cache k).frame
      = (renderCached draw cache k).frame := by
  cases h : cache.lookup k with
  | some img => simp [renderCached, h]
  | none => simp [renderCached, h]

end Text2Video
